import Mathlib

/-! # Caide C++ inliner: the optimizer pass

Shallow embedding of `src/src/optimizer.cpp` (the worklist closure of
`OptimizerConsumer::HandleTranslationUnit`, `removeUnusedVariables`,
`getResult`, `Optimizer::doOptimize`) and of the `SmartRewriter` interface
declared in `src/libcaide/cbits/SmartRewriter.h`.
-/

namespace Caide

/-! ## Reachability: the worklist loop of `HandleTranslationUnit` -/

/-- Identity of a declaration: the address stored in a `Decl*`.  A
`std::set<Decl*>` is ordered by that address. -/
abbrev Decl := Nat

/-- The map `srcInfo.uses`: finitely many keys, each with the declarations it
uses. -/
abbrev UseGraph := List (Decl × List Decl)

/-- The value of `srcInfo.uses[decl]`: `operator[]` yields the empty set for a key
that has no entry. -/
def usesOf (G : UseGraph) (decl : Decl) : Finset Decl :=
  match G.lookup decl with
  | some s => s.toFinset
  | none => ∅

/-- The two front-end queries the loop makes on a declaration. -/
structure DeclQueries where
  isNamespaceDecl : Decl → Bool
  getCanonicalDecl : Decl → Decl
  isInMainFile : Decl → Bool

/-- The first loop: `for (Decl* decl : srcInfo.declsToKeep)
queue.insert(isa<NamespaceDecl>(decl) ? decl : decl->getCanonicalDecl());` -/
def initialQueue (q : DeclQueries) (declsToKeep : List Decl) : Finset Decl :=
  declsToKeep.foldl
    (fun queue decl =>
      insert (if q.isNamespaceDecl decl then decl else q.getCanonicalDecl decl) queue)
    ∅

/-- The variables the `while` loop updates. -/
structure Closure where
  used : Finset Decl
  queue : Finset Decl
  usedDecls : Finset Decl

/-- The call `usedDecls.addIfInMainFile(decl)`. -/
def addIfInMainFile (q : DeclQueries) (usedDecls : Finset Decl) (decl : Decl) : Finset Decl :=
  if q.isInMainFile decl then insert decl usedDecls else usedDecls

/-- The loop `while (!queue.empty()) { ... }`, one iteration per unit of fuel;
`none` when the fuel runs out before the queue is empty. -/
def whileQueue (q : DeclQueries) (G : UseGraph) : Nat → Closure → Option Closure
  | fuel, s =>
    if h : s.queue.Nonempty then
      match fuel with
      | 0 => none
      | fuel + 1 =>
        let decl := s.queue.min' h
        let queue := s.queue.erase decl
        if decl ∈ s.used then
          whileQueue q G fuel { s with queue := queue }
        else
          whileQueue q G fuel
            { used := insert decl s.used
              queue := queue ∪ usesOf G decl
              usedDecls := addIfInMainFile q s.usedDecls decl }
    else some s

/-- The closure computation of `HandleTranslationUnit` up to the point where the
queue is empty (before `used.clear()`). -/
def HandleTranslationUnit.closure (q : DeclQueries) (G : UseGraph) (declsToKeep : List Decl) (fuel : Nat) :
    Option Closure :=
  whileQueue q G fuel { used := ∅, queue := initialQueue q declsToKeep, usedDecls := ∅ }

/-- Node `d` is reachable from the set `Q` by zero or more edges of `G`. -/
def Reachable (G : UseGraph) (Q : Finset Decl) (d : Decl) : Prop :=
  ∃ r ∈ Q, Relation.ReflTransGen (fun a b => b ∈ usesOf G a) r d

/-- Every declaration that occurs as the target of an edge. -/
def targets (G : UseGraph) : Finset Decl :=
  (G.map (fun kv => kv.2.toFinset)).foldr (fun s acc => s ∪ acc) ∅

/-- The loop invariant. -/
structure WorkInv (G : UseGraph) (Q : Finset Decl) (s : Closure) : Prop where
  sound : ∀ d, d ∈ s.used ∪ s.queue → Reachable G Q d
  roots : Q ⊆ s.used ∪ s.queue
  closed : ∀ d ∈ s.used, usesOf G d ⊆ s.used ∪ s.queue

/-- Termination measure of the loop inside the node universe `U`. -/
def workMeasure (U : Finset Decl) (s : Closure) : Nat :=
  (U \ s.used).card * (U.card + 1) + s.queue.card

/-! ## Source locations and the rewriter interface -/

/-- A `clang::SourceLocation`: an offset into the translation unit, `0` being
the invalid location. -/
abbrev SourceLocation := Nat

/-- The method `SourceLocation::isValid`. -/
def isValid (loc : SourceLocation) : Bool := loc != 0

/-- A `clang::SourceRange`. -/
structure SourceRange where
  getBegin : SourceLocation
  getEnd : SourceLocation
  deriving DecidableEq, Repr

/-- The field of `clang::Rewriter::RewriteOptions` that the optimizer sets. -/
structure RewriteOptions where
  RemoveLineIfEmpty : Bool
  deriving DecidableEq, Repr

/-- The struct `RewriteItem` of `SmartRewriter.h`. -/
structure RewriteItem where
  range : SourceRange
  opts : RewriteOptions
  deriving DecidableEq, Repr

/-- The one `SmartRewriter` method that `removeUnusedVariables` calls, over an
arbitrary rewriter state. -/
structure RewriterOps (σ : Type) where
  removeRange : SourceRange → RewriteOptions → σ → Bool × σ

/-- A rewriter that only records, in call order, the requests it receives. -/
def recorder : RewriterOps (List RewriteItem) where
  removeRange := fun range opts log => (true, log ++ [{ range := range, opts := opts }])

/-! ## `removeUnusedVariables` -/

/-- A `VarDecl*`. -/
abbrev VarDecl := Nat

/-- Token kinds passed to `findTokenAfterLocation`. -/
inductive TokenKind where
  | comma
  | semi
  deriving DecidableEq, Repr

/-- What `removeUnusedVariables` asks of the front end and of `util.h`
(`getExpansionEnd`, `findSemiAfterLocation`, `findTokenAfterLocation`), whose
bodies are not part of the two source files. -/
structure FrontEnd where
  getCanonicalDecl : VarDecl → Decl
  getLocation : VarDecl → SourceLocation
  getExpansionEnd : VarDecl → SourceLocation
  findSemiAfterLocation : SourceLocation → SourceLocation
  findTokenAfterLocation : SourceLocation → TokenKind → SourceLocation

/-- The method `UsedDeclarations::contains`, over the registry filled by
`addIfInMainFile`. -/
def contains (usedDecls : Finset Decl) (decl : Decl) : Bool := decide (decl ∈ usedDecls)

/-- One iteration of the first `for` loop: `isUsed[i] = usedDecls.contains(...);
if (isUsed[i]) lastUsed = i;`.  The index is always in range there. -/
def classifyStep (fe : FrontEnd) (usedDecls : Finset Decl) (vars : List VarDecl)
    (st : List Bool × Nat) (i : Nat) : List Bool × Nat :=
  let var := vars.getD i 0
  let isUsed := st.1.set i (contains usedDecls (fe.getCanonicalDecl var))
  (isUsed, if isUsed.getD i true then i else st.2)

/-- The first `for` loop, from `vector<bool> isUsed(n, true); size_t lastUsed = n;`. -/
def classify (fe : FrontEnd) (usedDecls : Finset Decl) (vars : List VarDecl) : List Bool × Nat :=
  (List.range vars.length).foldl (classifyStep fe usedDecls vars)
    (List.replicate vars.length true, vars.length)

/-- One iteration of `for (size_t i = 0; i < lastUsed; ++i) if (!isUsed[i]) { ... }`. -/
def removeBeforeStep {σ : Type} (ops : RewriterOps σ) (fe : FrontEnd) (opts : RewriteOptions)
    (vars : List VarDecl) (isUsed : List Bool) (rw : σ) (i : Nat) : σ :=
  if !(isUsed.getD i true) then
    let beg := fe.getLocation (vars.getD i 0)
    let end0 := fe.getExpansionEnd (vars.getD i 0)
    let end1 := if i + 1 < vars.length then fe.findTokenAfterLocation end0 TokenKind.comma else end0
    if isValid beg && isValid end1 then
      (ops.removeRange { getBegin := beg, getEnd := end1 } opts rw).2
    else rw
  else rw

/-- The body of `for (const auto& kv : srcInfo.staticVariables)` for one entry
`kv`.  `vars.back()` on an empty vector has no defined result: `none`. -/
def removeUnusedVariablesGroup {σ : Type} (ops : RewriterOps σ) (fe : FrontEnd)
    (usedDecls : Finset Decl) (opts : RewriteOptions)
    (kv : SourceLocation × List VarDecl) (rw : σ) : Option σ :=
  let vars := kv.2
  let n := vars.length
  let isUsed := (classify fe usedDecls vars).1
  let lastUsed := (classify fe usedDecls vars).2
  let startOfType := kv.1
  match vars.getLast? with
  | none => none
  | some back =>
    let endOfLastVar := fe.getExpansionEnd back
    if lastUsed = n then
      let semiColon := fe.findSemiAfterLocation endOfLastVar
      some (ops.removeRange { getBegin := startOfType, getEnd := semiColon } opts rw).2
    else
      let rw1 := (List.range lastUsed).foldl (removeBeforeStep ops fe opts vars isUsed) rw
      if lastUsed + 1 ≠ n then
        let end0 := fe.getExpansionEnd (vars.getD lastUsed 0)
        let comma := fe.findTokenAfterLocation end0 TokenKind.comma
        some (ops.removeRange { getBegin := comma, getEnd := endOfLastVar } opts rw1).2
      else some rw1

/-- The function `removeUnusedVariables`: `opts.RemoveLineIfEmpty = true`, then the
loop over `srcInfo.staticVariables`. -/
def removeUnusedVariables {σ : Type} (ops : RewriterOps σ) (fe : FrontEnd)
    (usedDecls : Finset Decl) (staticVariables : List (SourceLocation × List VarDecl))
    (rw : σ) : Option σ :=
  staticVariables.foldlM
    (fun rw kv => removeUnusedVariablesGroup ops fe usedDecls { RemoveLineIfEmpty := true } kv rw)
    rw

/-- The removal requests that `removeUnusedVariables` submits for one group, in
call order. -/
def submitted (fe : FrontEnd) (usedDecls : Finset Decl)
    (kv : SourceLocation × List VarDecl) : Option (List RewriteItem) :=
  removeUnusedVariablesGroup recorder fe usedDecls { RemoveLineIfEmpty := true } kv []

/-- Whether the declarator `var` is marked used. -/
def isUsedVar (fe : FrontEnd) (usedDecls : Finset Decl) (var : VarDecl) : Bool :=
  contains usedDecls (fe.getCanonicalDecl var)

/-- The separator comma that follows the initializer of `var`. -/
def commaAfter (fe : FrontEnd) (var : VarDecl) : SourceLocation :=
  fe.findTokenAfterLocation (fe.getExpansionEnd var) TokenKind.comma

/-- The request for one unused declarator that precedes the last used one: from
its name through the following comma, when both locations are valid. -/
def declaratorSpan (fe : FrontEnd) (usedDecls : Finset Decl) (var : VarDecl) :
    Option RewriteItem :=
  if !(isUsedVar fe usedDecls var) && (isValid (fe.getLocation var) && isValid (commaAfter fe var))
  then some { range := { getBegin := fe.getLocation var, getEnd := commaAfter fe var }
              opts := { RemoveLineIfEmpty := true } }
  else none

/-- The request for the declarators `post` that follow the last used declarator
`u`: none when `post` is empty. -/
def trailingSpan (fe : FrontEnd) (u : VarDecl) (post : List VarDecl) : List RewriteItem :=
  match post.getLast? with
  | none => []
  | some back =>
    [{ range := { getBegin := commaAfter fe u, getEnd := fe.getExpansionEnd back }
       opts := { RemoveLineIfEmpty := true } }]

/-! ## The statement `int a=1, b=2, c=3;` -/

/-- The location of the next token after `loc` when that token starts with the
character `c`, the invalid location otherwise.  Written for a location `loc` that
is the last character of its token, with blanks as the only white space. -/
def findCharAfter (text : List Char) (loc : SourceLocation) (c : Char) : SourceLocation :=
  let rest := text.drop loc
  match (rest.dropWhile (fun ch => ch == ' ')).head? with
  | some ch => if ch == c then loc + (rest.takeWhile (fun ch => ch == ' ')).length + 1 else 0
  | none => 0

/-- The text of the example statement; the character at index `k` has location
`k + 1`. -/
def exampleText : List Char := "int a=1, b=2, c=3;".toList

/-- The three declarators `a`, `b`, `c` of the example statement. -/
def exampleVars : List VarDecl := [101, 102, 103]

/-- The front end on the example statement: names at locations 5, 10, 15, the
initializers end at 7, 12, 17, the commas are at 8 and 13, the semicolon at 18. -/
def exampleFrontEnd : FrontEnd where
  getCanonicalDecl := fun var => var
  getLocation := fun var =>
    if var = 101 then 5 else if var = 102 then 10 else if var = 103 then 15 else 0
  getExpansionEnd := fun var =>
    if var = 101 then 7 else if var = 102 then 12 else if var = 103 then 17 else 0
  findSemiAfterLocation := fun loc => findCharAfter exampleText loc ';'
  findTokenAfterLocation := fun loc kind =>
    match kind with
    | TokenKind.comma => findCharAfter exampleText loc ','
    | TokenKind.semi => findCharAfter exampleText loc ';'

/-- The example group: the type specifier starts at location 1. -/
def exampleGroup : SourceLocation × List VarDecl := (1, exampleVars)

/-- Whether the character at location `loc` lies in one of the ranges, each
taken as the characters from its begin through its end. -/
def inSomeRange (ranges : List SourceRange) (loc : SourceLocation) : Bool :=
  ranges.any (fun r => decide (r.getBegin ≤ loc) && decide (loc ≤ r.getEnd))

/-- The text left after deleting the characters of the given ranges. -/
def deleteRanges (text : List Char) (ranges : List SourceRange) : List Char :=
  (text.enum.filter (fun p => !(inSomeRange ranges (p.1 + 1)))).map Prod.snd

/-- The text left after deleting the ranges of the given requests; `none` when
the requests are `none`. -/
def deleteSubmitted (text : List Char) (requests : Option (List RewriteItem)) :
    Option String :=
  requests.map (fun items => String.mk (deleteRanges text (items.map (fun it => it.range))))

/-- A front end for a group whose separators and terminator come out of macro
expansions: declarators 201 and 202 named at locations 5 and 12, their
initializers ending at 7 and 14, and no comma or semicolon found after them. -/
def macroFrontEnd : FrontEnd where
  getCanonicalDecl := fun var => var
  getLocation := fun var => if var = 201 then 5 else if var = 202 then 12 else 0
  getExpansionEnd := fun var => if var = 201 then 7 else if var = 202 then 14 else 0
  findSemiAfterLocation := fun _ => 0
  findTokenAfterLocation := fun _ _ => 0

/-- The greatest index below `k` at which `p` holds, `d` when there is none. -/
def lastTrue (p : Nat → Bool) : Nat → Nat → Nat
  | 0, d => d
  | k + 1, d => if p k then k else lastTrue p k d

/-- The requests of a list replayed, in order, on a rewriter. -/
def replay {σ : Type} (ops : RewriterOps σ) (items : List RewriteItem) (rw : σ) : σ :=
  items.foldl (fun rw item => (ops.removeRange item.range item.opts rw).2) rw

/-- The locations covered by a range: its begin through its end. -/
def covers (r : SourceRange) (loc : SourceLocation) : Prop :=
  r.getBegin ≤ loc ∧ loc ≤ r.getEnd

/-- Two ranges with no location in common. -/
def RangesDisjoint (a b : SourceRange) : Prop :=
  ∀ loc, ¬ (covers a loc ∧ covers b loc)

/-- Range `a` contains every location of range `b`. -/
def RangeContains (a b : SourceRange) : Prop :=
  ∀ loc, covers b loc → covers a loc

/-- The declarators of a group lie at increasing locations:
`name_0 ≤ end_0 < comma_0 < name_1 ≤ end_1 < ... ≤ end_(n-1) < semicolon`. -/
def Increasing (fe : FrontEnd) : List VarDecl → Prop
  | [] => True
  | [v] =>
    fe.getLocation v ≤ fe.getExpansionEnd v ∧
      fe.getExpansionEnd v < fe.findSemiAfterLocation (fe.getExpansionEnd v)
  | v :: w :: rest =>
    fe.getLocation v ≤ fe.getExpansionEnd v ∧ fe.getExpansionEnd v < commaAfter fe v ∧
      commaAfter fe v < fe.getLocation w ∧ Increasing fe (w :: rest)

/-- Deciding `Increasing` on a given group. -/
def decIncreasing (fe : FrontEnd) : (vars : List VarDecl) → Decidable (Increasing fe vars)
  | [] => isTrue trivial
  | [v] =>
    inferInstanceAs (Decidable (fe.getLocation v ≤ fe.getExpansionEnd v ∧
      fe.getExpansionEnd v < fe.findSemiAfterLocation (fe.getExpansionEnd v)))
  | v :: w :: rest =>
    have : Decidable (Increasing fe (w :: rest)) := decIncreasing fe (w :: rest)
    inferInstanceAs (Decidable (fe.getLocation v ≤ fe.getExpansionEnd v ∧
      fe.getExpansionEnd v < commaAfter fe v ∧
      commaAfter fe v < fe.getLocation w ∧ Increasing fe (w :: rest)))

instance instDecidableIncreasing (fe : FrontEnd) (vars : List VarDecl) :
    Decidable (Increasing fe vars) :=
  decIncreasing fe vars

/-- The order between a declarator and a later one of the same group. -/
def Before (fe : FrontEnd) (a b : VarDecl) : Prop :=
  fe.getExpansionEnd a < commaAfter fe a ∧ commaAfter fe a < fe.getLocation b ∧
    fe.getLocation b ≤ fe.getExpansionEnd b

/-! ## `getResult` and `doOptimize` -/

/-- The function `getResult`.  `rewriteBuf` is the result of
`smartRewriter->getRewriteBufferFor(mainFileID)` (`none` for a null pointer),
`buf` and `invalid` are what `sourceManager.getBuffer(mainFileID, &invalid)`
delivers (`none` for a null pointer). -/
def getResult (rewriteBuf : Option String) (buf : Option String) (invalid : Bool) : String :=
  match rewriteBuf with
  | some rewritten => rewritten
  | none =>
    match buf with
    | some original => if !invalid then original else "Inliner error"
    | none => "Inliner error"

/-- What `doOptimize` can throw: the `std::runtime_error` it raises itself, or the
C string that `CreateASTConsumer` throws during the run. -/
inductive Thrown where
  | runtime_error (what : String)
  | cstring (what : String)
  deriving DecidableEq, Repr

/-- The function `Optimizer::doOptimize`.  `toolRun sources` is the call
`tool.run(&factory)`: it either throws a C string, or returns its status
together with the value it has left in `result`. -/
def doOptimize (toolRun : List String → Except String (Int × String)) (cppFile : String) :
    Except Thrown String :=
  match toolRun [cppFile] with
  | Except.error what => Except.error (Thrown.cstring what)
  | Except.ok (ret, result) =>
    if ret ≠ 0 then Except.error (Thrown.runtime_error "Compilation error")
    else Except.ok result

/-! ## The range removal ledger (`SmartRewriter`) -/

/-- Modelled from the spec: the body of `RewriteItemComparer::operator()` is not
in the source files; "a total order over (start offset, end offset)". -/
def itemLess (lhs rhs : RewriteItem) : Bool :=
  decide (lhs.range.getBegin < rhs.range.getBegin) ||
    (decide (lhs.range.getBegin = rhs.range.getBegin) &&
      decide (lhs.range.getEnd < rhs.range.getEnd))

/-- Insertion into the `std::set<RewriteItem, RewriteItemComparer>` named
`removed`: the items stay in comparer order and an item equivalent to a present
one is not added. -/
def setInsert (item : RewriteItem) : List RewriteItem → List RewriteItem
  | [] => [item]
  | x :: xs =>
    if itemLess item x then item :: x :: xs
    else if itemLess x item then x :: setInsert item xs
    else x :: xs

/-- The data members of `SmartRewriter` that the ledger operations read and
write. -/
structure SmartRewriter where
  removed : List RewriteItem
  changesApplied : Bool
  deriving DecidableEq, Repr

/-- The ledger at the start of a run. -/
def SmartRewriter.empty : SmartRewriter := { removed := [], changesApplied := false }

/-- Modelled from the spec: two ranges partially overlap "when they share some
but not all positions and neither contains the other". -/
def partiallyOverlap (a b : SourceRange) : Bool :=
  -- some location in common
  (decide (a.getBegin ≤ a.getEnd) && decide (b.getBegin ≤ b.getEnd) &&
    decide (a.getBegin ≤ b.getEnd) && decide (b.getBegin ≤ a.getEnd)) &&
  -- `a` does not contain `b`
  !(decide (a.getBegin ≤ b.getBegin) && decide (b.getEnd ≤ a.getEnd)) &&
  -- `b` does not contain `a`
  !(decide (b.getBegin ≤ a.getBegin) && decide (a.getEnd ≤ b.getEnd))

/-- Modelled from the spec: the body of `SmartRewriter::canRemoveRange` is not in
the source files; "true iff accepting `range` would not create a partial
(non-nesting) overlap with any already-accepted range". -/
def canRemoveRange (s : SmartRewriter) (range : SourceRange) : Bool :=
  s.removed.all (fun item => !(partiallyOverlap item.range range))

/-- Modelled from the spec: the body of `SmartRewriter::removeRange` is not in the
source files; "if `canRemove(range)` is false, the request is rejected and has
no effect; otherwise the range is inserted into the accepted set with its
options and the call succeeds". -/
def removeRange (s : SmartRewriter) (range : SourceRange) (opts : RewriteOptions) :
    Bool × SmartRewriter :=
  if canRemoveRange s range then
    (true, { s with removed := setInsert { range := range, opts := opts } s.removed })
  else (false, s)

/-- The ledger as the rewriter of `removeUnusedVariables`. -/
def smartRewriterOps : RewriterOps SmartRewriter where
  removeRange := fun range opts s => removeRange s range opts

/-- The ledger after a sequence of `removeRange` calls on the empty ledger. -/
def removeAll (calls : List (SourceRange × RewriteOptions)) : SmartRewriter :=
  calls.foldl (fun s call => (removeRange s call.1 call.2).2) SmartRewriter.empty

/-- Every two accepted ranges are disjoint or nested. -/
def Compatible (s : SmartRewriter) : Prop :=
  ∀ a ∈ s.removed, ∀ b ∈ s.removed,
    RangesDisjoint a.range b.range ∨ RangeContains a.range b.range ∨
      RangeContains b.range a.range

theorem mem_initialQueue (q : DeclQueries) (declsToKeep : List Decl) (d : Decl) :
    d ∈ initialQueue q declsToKeep ↔
      ∃ r ∈ declsToKeep, d = if q.isNamespaceDecl r then r else q.getCanonicalDecl r := by
  unfold initialQueue
  have key : ∀ (l : List Decl) (acc : Finset Decl),
      d ∈ l.foldl (fun queue decl =>
          insert (if q.isNamespaceDecl decl then decl else q.getCanonicalDecl decl) queue) acc ↔
        d ∈ acc ∨ ∃ r ∈ l, d = if q.isNamespaceDecl r then r else q.getCanonicalDecl r := by
    intro l
    induction l with
    | nil => intro acc; simp
    | cons x xs ih =>
      intro acc
      simp only [List.foldl_cons, ih, Finset.mem_insert, List.mem_cons, exists_eq_or_imp]
      tauto
  simpa using key declsToKeep ∅

theorem usesOf_subset_targets (G : UseGraph) (d : Decl) : usesOf G d ⊆ targets G := by
  unfold usesOf targets
  induction G with
  | nil => simp [List.lookup]
  | cons kv rest ih =>
    obtain ⟨k, v⟩ := kv
    simp only [List.lookup, List.map_cons, List.foldr_cons]
    by_cases hk : d = k
    · subst hk
      simp
    · have : (d == k) = false := by simpa using hk
      rw [this]
      exact ih.trans Finset.subset_union_right

theorem reachable_mem_universe (G : UseGraph) (Q : Finset Decl) (d : Decl)
    (h : Reachable G Q d) : d ∈ Q ∪ targets G := by
  obtain ⟨r, hr, hpath⟩ := h
  cases hpath with
  | refl => exact Finset.mem_union_left _ hr
  | tail _ hlast => exact Finset.mem_union_right _ (usesOf_subset_targets G _ hlast)

theorem workInv_init (G : UseGraph) (Q : Finset Decl) :
    WorkInv G Q { used := ∅, queue := Q, usedDecls := ∅ } where
  sound := by
    intro d hd
    simp only [Finset.empty_union] at hd
    exact ⟨d, hd, Relation.ReflTransGen.refl⟩
  roots := by simp
  closed := by simp

theorem workInv_skip (G : UseGraph) (Q : Finset Decl) (s : Closure) (decl : Decl)
    (hinv : WorkInv G Q s) (hused : decl ∈ s.used) :
    WorkInv G Q { s with queue := s.queue.erase decl } where
  sound := by
    intro d hd
    apply hinv.sound
    simp only [Finset.mem_union, Finset.mem_erase] at hd ⊢
    tauto
  roots := by
    intro d hd
    have := hinv.roots hd
    simp only [Finset.mem_union, Finset.mem_erase] at this ⊢
    by_cases hdd : d = decl
    · subst hdd; exact Or.inl hused
    · tauto
  closed := by
    intro d hd e he
    have := hinv.closed d hd he
    simp only [Finset.mem_union, Finset.mem_erase] at this ⊢
    by_cases hdd : e = decl
    · subst hdd; exact Or.inl hused
    · tauto

theorem workInv_visit (G : UseGraph) (Q : Finset Decl) (q : DeclQueries) (s : Closure)
    (decl : Decl) (hinv : WorkInv G Q s) (hq : decl ∈ s.queue) :
    WorkInv G Q
      { used := insert decl s.used
        queue := s.queue.erase decl ∪ usesOf G decl
        usedDecls := addIfInMainFile q s.usedDecls decl } where
  sound := by
    intro d hd
    simp only [Finset.mem_union, Finset.mem_insert, Finset.mem_erase] at hd
    have hdecl : Reachable G Q decl := hinv.sound decl (Finset.mem_union_right _ hq)
    rcases hd with (rfl | hd) | ⟨_, hd⟩ | hd
    · exact hdecl
    · exact hinv.sound d (Finset.mem_union_left _ hd)
    · exact hinv.sound d (Finset.mem_union_right _ hd)
    · obtain ⟨r, hr, hpath⟩ := hdecl
      exact ⟨r, hr, Relation.ReflTransGen.tail hpath hd⟩
  roots := by
    intro d hd
    have := hinv.roots hd
    simp only [Finset.mem_union, Finset.mem_insert, Finset.mem_erase] at this ⊢
    by_cases hdd : d = decl <;> tauto
  closed := by
    intro d hd e he
    simp only [Finset.mem_insert] at hd
    simp only [Finset.mem_union, Finset.mem_insert, Finset.mem_erase]
    rcases hd with rfl | hd
    · tauto
    · have := hinv.closed d hd he
      simp only [Finset.mem_union] at this
      by_cases hdd : e = decl <;> tauto

theorem workInv_final (G : UseGraph) (Q : Finset Decl) (s : Closure)
    (hinv : WorkInv G Q s) (hempty : ¬ s.queue.Nonempty) (d : Decl) :
    d ∈ s.used ↔ Reachable G Q d := by
  have hq : s.queue = ∅ := Finset.not_nonempty_iff_eq_empty.mp hempty
  constructor
  · intro hd
    exact hinv.sound d (Finset.mem_union_left _ hd)
  · rintro ⟨r, hr, hpath⟩
    induction hpath with
    | refl =>
      have := hinv.roots hr
      simpa [hq] using this
    | tail _ hlast ih =>
      have := hinv.closed _ ih hlast
      simpa [hq] using this

theorem whileQueue_terminates (q : DeclQueries) (G : UseGraph) (Q : Finset Decl) :
    ∀ (fuel : Nat) (s : Closure), WorkInv G Q s →
      workMeasure (Q ∪ targets G) s ≤ fuel →
      ∃ r, whileQueue q G fuel s = some r ∧ WorkInv G Q r ∧ ¬ r.queue.Nonempty := by
  intro fuel
  induction fuel with
  | zero =>
    intro s hinv hfuel
    have hcard : s.queue.card = 0 := by
      unfold workMeasure at hfuel
      omega
    have hne : ¬ s.queue.Nonempty := by
      rw [Finset.not_nonempty_iff_eq_empty]
      exact Finset.card_eq_zero.mp hcard
    exact ⟨s, by unfold whileQueue; simp [hne], hinv, hne⟩
  | succ fuel ih =>
    intro s hinv hfuel
    by_cases hne : s.queue.Nonempty
    · have hmin : s.queue.min' hne ∈ s.queue := Finset.min'_mem _ hne
      have hsubU : ∀ t : Closure, WorkInv G Q t → t.used ∪ t.queue ⊆ Q ∪ targets G :=
        fun t ht d hd => reachable_mem_universe G Q d (ht.sound d hd)
      by_cases hused : s.queue.min' hne ∈ s.used
      · have hinv2 := workInv_skip G Q s _ hinv hused
        have hm : workMeasure (Q ∪ targets G) { s with queue := s.queue.erase (s.queue.min' hne) }
            ≤ fuel := by
          unfold workMeasure at hfuel ⊢
          simp only
          have := Finset.card_erase_of_mem hmin
          have hpos : 0 < s.queue.card := Finset.card_pos.mpr hne
          omega
        obtain ⟨r, hr, hrinv, hrq⟩ := ih _ hinv2 hm
        refine ⟨r, ?_, hrinv, hrq⟩
        rw [whileQueue]
        simp only [hne, hused, dite_true, if_true]
        exact hr
      · have hinv2 := workInv_visit G Q q s _ hinv hmin
        have hU := hsubU _ hinv2
        have hm : workMeasure (Q ∪ targets G)
            { used := insert (s.queue.min' hne) s.used
              queue := s.queue.erase (s.queue.min' hne) ∪ usesOf G (s.queue.min' hne)
              usedDecls := addIfInMainFile q s.usedDecls (s.queue.min' hne) } ≤ fuel := by
          unfold workMeasure at hfuel ⊢
          simp only at hU ⊢
          have hminU : s.queue.min' hne ∈ (Q ∪ targets G) \ s.used := by
            rw [Finset.mem_sdiff]
            exact ⟨hsubU s hinv (Finset.mem_union_right _ hmin), hused⟩
          have hsd : (Q ∪ targets G) \ insert (s.queue.min' hne) s.used =
              ((Q ∪ targets G) \ s.used).erase (s.queue.min' hne) := by
            ext x
            simp only [Finset.mem_sdiff, Finset.mem_insert, Finset.mem_erase]
            tauto
          rw [hsd, Finset.card_erase_of_mem hminU]
          have hqle : (s.queue.erase (s.queue.min' hne) ∪ usesOf G (s.queue.min' hne)).card ≤
              (Q ∪ targets G).card :=
            Finset.card_le_card (Finset.union_subset_right hU)
          have hpos : 0 < ((Q ∪ targets G) \ s.used).card := Finset.card_pos.mpr ⟨_, hminU⟩
          obtain ⟨k, hk⟩ : ∃ k, ((Q ∪ targets G) \ s.used).card = k + 1 :=
            ⟨_, (Nat.succ_pred_eq_of_pos hpos).symm⟩
          rw [hk] at hfuel ⊢
          simp only [Nat.add_sub_cancel]
          have : (k + 1) * ((Q ∪ targets G).card + 1) =
              k * ((Q ∪ targets G).card + 1) + ((Q ∪ targets G).card + 1) := by ring
          omega
        obtain ⟨r, hr, hrinv, hrq⟩ := ih _ hinv2 hm
        refine ⟨r, ?_, hrinv, hrq⟩
        rw [whileQueue]
        simp only [hne, hused, dite_true, if_false]
        exact hr
    · exact ⟨s, by unfold whileQueue; simp [hne], hinv, hne⟩

theorem lastTrue_none (p : Nat → Bool) (d : Nat) :
    ∀ k, (∀ i, i < k → p i = false) → lastTrue p k d = d := by
  intro k
  induction k with
  | zero => intro _; rfl
  | succ k ih =>
    intro h
    simp only [lastTrue, h k (Nat.lt_succ_self k), Bool.false_eq_true, if_false]
    exact ih (fun i hi => h i (Nat.lt_succ_of_lt hi))

theorem lastTrue_last (p : Nat → Bool) (d j : Nat) (hj : p j = true) :
    ∀ k, j < k → (∀ i, j < i → i < k → p i = false) → lastTrue p k d = j := by
  intro k
  induction k with
  | zero => intro h; omega
  | succ k ih =>
    intro hjk h
    by_cases hk : j = k
    · subst hk
      simp [lastTrue, hj]
    · have hlt : j < k := by omega
      simp only [lastTrue, h k hlt (Nat.lt_succ_self k), Bool.false_eq_true, if_false]
      exact ih hlt (fun i h1 h2 => h i h1 (Nat.lt_succ_of_lt h2))

theorem classify_fold (fe : FrontEnd) (usedDecls : Finset Decl) (vars : List VarDecl)
    (st : List Bool × Nat) (hlen : st.1.length = vars.length) :
    ∀ k, k ≤ vars.length →
      ((List.range k).foldl (classifyStep fe usedDecls vars) st).1.length = vars.length ∧
      (∀ i, i < k →
        ((List.range k).foldl (classifyStep fe usedDecls vars) st).1.getD i true =
          isUsedVar fe usedDecls (vars.getD i 0)) ∧
      ((List.range k).foldl (classifyStep fe usedDecls vars) st).2 =
        lastTrue (fun i => isUsedVar fe usedDecls (vars.getD i 0)) k st.2 := by
  intro k
  induction k with
  | zero => intro _; simp [hlen, lastTrue]
  | succ k ih =>
    intro hk
    obtain ⟨h1, h2, h3⟩ := ih (Nat.le_of_succ_le hk)
    rw [List.range_succ, List.foldl_append]
    simp only [List.foldl_cons, List.foldl_nil]
    generalize (List.range k).foldl (classifyStep fe usedDecls vars) st = r at h1 h2 h3
    have hkr : k < r.1.length := by omega
    refine ⟨by simp [classifyStep, h1], ?_, ?_⟩
    · intro i hi
      by_cases hik : i = k
      · subst hik
        simp [classifyStep, isUsedVar, List.getD_eq_getElem?_getD, List.getElem?_set, hkr]
      · have : i < k := by omega
        have h2i := h2 i this
        simp only [classifyStep, List.getD_eq_getElem?_getD] at h2i ⊢
        rw [List.getElem?_set_ne (Ne.symm hik)]
        exact h2i
    · simp only [classifyStep, lastTrue, isUsedVar, List.getD_eq_getElem?_getD,
        List.getElem?_set, hkr] at h3 ⊢
      simp [h3]

theorem getD_append_cons (pre post : List VarDecl) (u d : VarDecl) :
    (pre ++ u :: post).getD pre.length d = u := by
  induction pre with
  | nil => rfl
  | cons x xs ih => simpa using ih

theorem classify_isUsed (fe : FrontEnd) (usedDecls : Finset Decl) (vars : List VarDecl)
    (i : Nat) (hi : i < vars.length) :
    (classify fe usedDecls vars).1.getD i true = isUsedVar fe usedDecls (vars.getD i 0) :=
  (classify_fold fe usedDecls vars (List.replicate vars.length true, vars.length)
    (by simp) vars.length (Nat.le_refl _)).2.1 i hi

theorem classify_lastUsed (fe : FrontEnd) (usedDecls : Finset Decl) (vars : List VarDecl) :
    (classify fe usedDecls vars).2 =
      lastTrue (fun i => isUsedVar fe usedDecls (vars.getD i 0)) vars.length vars.length :=
  (classify_fold fe usedDecls vars (List.replicate vars.length true, vars.length)
    (by simp) vars.length (Nat.le_refl _)).2.2

theorem classify_all_unused (fe : FrontEnd) (usedDecls : Finset Decl) (vars : List VarDecl)
    (h : ∀ v ∈ vars, isUsedVar fe usedDecls v = false) :
    (classify fe usedDecls vars).2 = vars.length := by
  rw [classify_lastUsed]
  apply lastTrue_none
  intro i hi
  simp only [List.getD_eq_getElem?_getD, List.getElem?_eq_getElem hi, Option.getD_some]
  exact h _ (List.getElem_mem _)

theorem classify_split (fe : FrontEnd) (usedDecls : Finset Decl) (pre post : List VarDecl)
    (u : VarDecl) (hu : isUsedVar fe usedDecls u = true)
    (hpost : ∀ v ∈ post, isUsedVar fe usedDecls v = false) :
    (classify fe usedDecls (pre ++ u :: post)).2 = pre.length := by
  rw [classify_lastUsed]
  apply lastTrue_last
  · simp only [getD_append_cons, hu]
  · simp
  · intro i h1 h2
    have h3 : i - pre.length - 1 < post.length := by
      simp only [List.length_append, List.length_cons] at h2
      omega
    have : (pre ++ u :: post).getD i 0 = post[i - pre.length - 1] := by
      rw [List.getD_eq_getElem?_getD, List.getElem?_append_right (by omega)]
      obtain ⟨m, hm⟩ : ∃ m, i - pre.length = m + 1 := ⟨i - pre.length - 1, by omega⟩
      simp only [hm, List.getElem?_cons_succ, Nat.add_sub_cancel]
      rw [List.getElem?_eq_getElem (by omega)]
      rfl
    simp only [this]
    exact hpost _ (List.getElem_mem _)

theorem removeBefore_recorder (fe : FrontEnd) (usedDecls : Finset Decl) (vars : List VarDecl)
    (isUsed : List Bool)
    (hused : ∀ i, i < vars.length → isUsed.getD i true = isUsedVar fe usedDecls (vars.getD i 0))
    (acc : List RewriteItem) :
    ∀ (pre rest : List VarDecl), vars = pre ++ rest → rest ≠ [] →
      (List.range pre.length).foldl
          (removeBeforeStep recorder fe { RemoveLineIfEmpty := true } vars isUsed) acc =
        acc ++ pre.filterMap (declaratorSpan fe usedDecls) := by
  intro pre
  induction pre using List.reverseRecOn with
  | nil => intro rest _ _; simp
  | append_singleton ys y ih =>
    intro rest hvars hrest
    have hvars2 : vars = ys ++ (y :: rest) := by simp [hvars]
    rw [List.length_append, List.length_singleton, List.range_succ, List.foldl_append,
      ih (y :: rest) hvars2 (by simp)]
    have hlt : ys.length + 1 < vars.length := by
      have : 0 < rest.length := List.length_pos.mpr hrest
      simp [hvars2]
      omega
    have hget : vars.getD ys.length 0 = y := by
      rw [hvars2, getD_append_cons]
    have hu := hused ys.length (by omega)
    simp only [List.foldl_cons, List.foldl_nil, removeBeforeStep, hu, hget, hlt, if_true,
      List.filterMap_append, List.filterMap_cons, List.filterMap_nil, declaratorSpan,
      commaAfter, recorder]
    by_cases hy : isUsedVar fe usedDecls y = true
    · simp [hy]
    · simp only [Bool.not_eq_true] at hy
      by_cases hv : (isValid (fe.getLocation y) &&
          isValid (fe.findTokenAfterLocation (fe.getExpansionEnd y) TokenKind.comma)) = true
      · simp [hy, hv]
      · simp only [Bool.not_eq_true] at hv
        simp [hy, hv]

theorem submitted_all_unused (fe : FrontEnd) (usedDecls : Finset Decl)
    (startOfType : SourceLocation) (vars : List VarDecl) (hne : vars ≠ [])
    (h : ∀ v ∈ vars, isUsedVar fe usedDecls v = false) :
    submitted fe usedDecls (startOfType, vars) =
      some [{ range := { getBegin := startOfType
                         getEnd := fe.findSemiAfterLocation
                           (fe.getExpansionEnd (vars.getLast hne)) }
              opts := { RemoveLineIfEmpty := true } }] := by
  unfold submitted removeUnusedVariablesGroup
  simp only [List.getLast?_eq_getLast _ hne, classify_all_unused fe usedDecls vars h, if_true,
    recorder, List.nil_append]

theorem submitted_some_used (fe : FrontEnd) (usedDecls : Finset Decl)
    (startOfType : SourceLocation) (pre post : List VarDecl) (u : VarDecl)
    (hu : isUsedVar fe usedDecls u = true)
    (hpost : ∀ v ∈ post, isUsedVar fe usedDecls v = false) :
    submitted fe usedDecls (startOfType, pre ++ u :: post) =
      some (pre.filterMap (declaratorSpan fe usedDecls) ++ trailingSpan fe u post) := by
  unfold submitted removeUnusedVariablesGroup
  have hne : pre ++ u :: post ≠ [] := by simp
  have hlast := classify_split fe usedDecls pre post u hu hpost
  have hloop := removeBefore_recorder fe usedDecls (pre ++ u :: post)
    (classify fe usedDecls (pre ++ u :: post)).1
    (fun i hi => classify_isUsed fe usedDecls _ i hi) [] pre (u :: post) rfl (by simp)
  have hneq : pre.length ≠ (pre ++ u :: post).length := by simp
  simp only [List.getLast?_eq_getLast _ hne, hlast, hneq, if_false, hloop, List.nil_append,
    getD_append_cons]
  cases post using List.reverseRecOn with
  | nil => simp [trailingSpan]
  | append_singleton ys y =>
    have hlen : pre.length + 1 ≠ (pre ++ u :: (ys ++ [y])).length := by simp
    have hback : (pre ++ u :: (ys ++ [y])).getLast hne = y := by
      simp [List.getLast_append]
    simp [hlen, hback, trailingSpan, recorder, commaAfter]

theorem replay_append {σ : Type} (ops : RewriterOps σ) (xs ys : List RewriteItem) (rw : σ) :
    replay ops (xs ++ ys) rw = replay ops ys (replay ops xs rw) := by
  simp [replay, List.foldl_append]

theorem removeBefore_replay {σ : Type} (ops : RewriterOps σ) (fe : FrontEnd)
    (opts : RewriteOptions) (vars : List VarDecl) (isUsed : List Bool) (rw : σ) :
    ∀ (idx : List Nat) (acc : List RewriteItem),
      idx.foldl (removeBeforeStep ops fe opts vars isUsed) (replay ops acc rw) =
        replay ops (idx.foldl (removeBeforeStep recorder fe opts vars isUsed) acc) rw := by
  intro idx
  induction idx with
  | nil => intro acc; rfl
  | cons i rest ih =>
    intro acc
    simp only [List.foldl_cons]
    have hstep : removeBeforeStep ops fe opts vars isUsed (replay ops acc rw) i =
        replay ops (removeBeforeStep recorder fe opts vars isUsed acc i) rw := by
      simp only [removeBeforeStep]
      split_ifs <;> simp [recorder, replay]
    rw [hstep, ih]

/-- Running the loop body on any rewriter is replaying, on that rewriter, the
requests that the recording rewriter has logged. -/
theorem removeUnusedVariablesGroup_replay {σ : Type} (ops : RewriterOps σ) (fe : FrontEnd)
    (usedDecls : Finset Decl) (kv : SourceLocation × List VarDecl) (rw : σ) :
    removeUnusedVariablesGroup ops fe usedDecls { RemoveLineIfEmpty := true } kv rw =
      (submitted fe usedDecls kv).map (fun items => replay ops items rw) := by
  unfold submitted removeUnusedVariablesGroup
  have hloop := removeBefore_replay ops fe { RemoveLineIfEmpty := true } kv.2
    (classify fe usedDecls kv.2).1 rw (List.range (classify fe usedDecls kv.2).2) []
  simp only [replay, List.foldl_nil] at hloop
  cases hlast : kv.2.getLast? with
  | none => simp [hlast]
  | some back =>
    simp only [hlast]
    split_ifs <;> simp [recorder, replay, hloop]

theorem exists_last_used (fe : FrontEnd) (usedDecls : Finset Decl) :
    ∀ vars : List VarDecl, (∃ v ∈ vars, isUsedVar fe usedDecls v = true) →
      ∃ pre u post, vars = pre ++ u :: post ∧ isUsedVar fe usedDecls u = true ∧
        ∀ v ∈ post, isUsedVar fe usedDecls v = false := by
  intro vars
  induction vars using List.reverseRecOn with
  | nil => rintro ⟨v, hv, _⟩; simp at hv
  | append_singleton ys y ih =>
    rintro ⟨v, hv, hused⟩
    by_cases hy : isUsedVar fe usedDecls y = true
    · exact ⟨ys, y, [], rfl, hy, by simp⟩
    · simp only [Bool.not_eq_true] at hy
      have hvys : v ∈ ys := by
        rcases List.mem_append.mp hv with h | h
        · exact h
        · simp only [List.mem_singleton] at h
          subst h
          rw [hy] at hused
          cases hused
      obtain ⟨pre, u, post, hsplit, hu, hpost⟩ := ih ⟨v, hvys, hused⟩
      refine ⟨pre, u, post ++ [y], by simp [hsplit], hu, ?_⟩
      intro w hw
      rcases List.mem_append.mp hw with h | h
      · exact hpost w h
      · simp only [List.mem_singleton] at h
        subst h
        exact hy

theorem increasing_pairwise (fe : FrontEnd) :
    ∀ vars : List VarDecl, Increasing fe vars → vars.Pairwise (Before fe) := by
  intro vars
  induction vars with
  | nil => intro _; exact List.Pairwise.nil
  | cons v rest ih =>
    cases rest with
    | nil => intro _; simp
    | cons w rest2 =>
      intro h
      obtain ⟨h1, h2, h3, h4⟩ := h
      have hp := ih h4
      have hw : fe.getLocation w ≤ fe.getExpansionEnd w := by
        cases rest2 with
        | nil => exact h4.1
        | cons x r => exact h4.1
      have hvw : Before fe v w := ⟨h2, h3, hw⟩
      refine List.Pairwise.cons ?_ hp
      intro b hb
      rcases List.mem_cons.mp hb with rfl | hb2
      · exact hvw
      · have hwb : Before fe w b := (List.pairwise_cons.mp hp).1 b hb2
        exact ⟨h2, lt_trans h3 (lt_of_le_of_lt hw (lt_trans hwb.1 hwb.2.1)), hwb.2.2⟩

theorem declaratorSpan_some (fe : FrontEnd) (usedDecls : Finset Decl) (v : VarDecl)
    (item : RewriteItem) (h : declaratorSpan fe usedDecls v = some item) :
    isUsedVar fe usedDecls v = false ∧
      item.range = { getBegin := fe.getLocation v, getEnd := commaAfter fe v } := by
  unfold declaratorSpan at h
  split at h
  · rename_i hc
    simp only [Option.some.injEq] at h
    subst h
    simp only [Bool.and_eq_true, Bool.not_eq_true'] at hc
    exact ⟨hc.1, rfl⟩
  · cases h

theorem filterMap_declaratorSpan_used (fe : FrontEnd) (usedDecls : Finset Decl) :
    ∀ pre : List VarDecl, (∀ v ∈ pre, isUsedVar fe usedDecls v = true) →
      pre.filterMap (declaratorSpan fe usedDecls) = [] := by
  intro pre
  induction pre with
  | nil => intro _; rfl
  | cons x xs ih =>
    intro h
    have hx : declaratorSpan fe usedDecls x = none := by
      simp [declaratorSpan, h x (List.mem_cons_self x xs)]
    rw [List.filterMap_cons, hx]
    exact ih (fun v hv => h v (List.mem_cons_of_mem x hv))

theorem submitted_all_used (fe : FrontEnd) (usedDecls : Finset Decl)
    (startOfType : SourceLocation) (vars : List VarDecl) (hne : vars ≠ [])
    (h : ∀ v ∈ vars, isUsedVar fe usedDecls v = true) :
    submitted fe usedDecls (startOfType, vars) = some [] := by
  have hsplit : vars = vars.dropLast ++ vars.getLast hne :: [] :=
    (List.dropLast_append_getLast hne).symm
  rw [hsplit, submitted_some_used fe usedDecls startOfType vars.dropLast [] (vars.getLast hne)
    (h _ (List.getLast_mem hne)) (by simp)]
  rw [filterMap_declaratorSpan_used fe usedDecls vars.dropLast
    (fun v hv => h v (List.mem_of_mem_dropLast hv))]
  rfl

theorem removeUnusedVariables_unchanged {σ : Type} (ops : RewriterOps σ) (fe : FrontEnd)
    (usedDecls : Finset Decl) :
    ∀ (staticVariables : List (SourceLocation × List VarDecl)) (rw : σ),
      (∀ kv ∈ staticVariables, kv.2 ≠ [] ∧ ∀ v ∈ kv.2, isUsedVar fe usedDecls v = true) →
      removeUnusedVariables ops fe usedDecls staticVariables rw = some rw := by
  intro staticVariables
  induction staticVariables with
  | nil => intro rw _; rfl
  | cons kv rest ih =>
    intro rw h
    obtain ⟨hne, hused⟩ := h kv (List.mem_cons_self kv rest)
    have hkv : removeUnusedVariablesGroup ops fe usedDecls { RemoveLineIfEmpty := true } kv rw =
        some rw := by
      rw [removeUnusedVariablesGroup_replay]
      have : submitted fe usedDecls kv = some [] :=
        submitted_all_used fe usedDecls kv.1 kv.2 hne hused
      rw [this]
      rfl
    have hrest := ih rw (fun kv2 hkv2 => h kv2 (List.mem_cons_of_mem kv hkv2))
    unfold removeUnusedVariables at hrest ⊢
    rw [List.foldlM_cons, hkv]
    exact hrest

theorem mem_setInsert (item x : RewriteItem) :
    ∀ l : List RewriteItem, x ∈ setInsert item l → x = item ∨ x ∈ l := by
  intro l
  induction l with
  | nil =>
    intro h
    simp only [setInsert, List.mem_singleton] at h
    exact Or.inl h
  | cons y ys ih =>
    intro h
    unfold setInsert at h
    split at h
    · rcases List.mem_cons.mp h with h1 | h1
      · exact Or.inl h1
      · exact Or.inr h1
    · split at h
      · rcases List.mem_cons.mp h with h1 | h1
        · exact Or.inr (h1 ▸ List.mem_cons_self y ys)
        · rcases ih h1 with h2 | h2
          · exact Or.inl h2
          · exact Or.inr (List.mem_cons_of_mem y h2)
      · exact Or.inr h

theorem partiallyOverlap_false (a b : SourceRange) (h : partiallyOverlap a b = false) :
    RangesDisjoint a b ∨ RangeContains a b ∨ RangeContains b a := by
  unfold RangesDisjoint RangeContains covers
  by_cases hd : a.getBegin ≤ a.getEnd ∧ b.getBegin ≤ b.getEnd ∧
      a.getBegin ≤ b.getEnd ∧ b.getBegin ≤ a.getEnd
  · by_cases hc1 : a.getBegin ≤ b.getBegin ∧ b.getEnd ≤ a.getEnd
    · right; left
      intro loc hl
      unfold SourceLocation at *
      omega
    · by_cases hc2 : b.getBegin ≤ a.getBegin ∧ a.getEnd ≤ b.getEnd
      · right; right
        intro loc hl
        unfold SourceLocation at *
        omega
      · exfalso
        simp only [partiallyOverlap, Bool.and_eq_false_iff, Bool.and_eq_true, Bool.not_eq_true',
          decide_eq_true_eq, decide_eq_false_iff_not, Bool.not_eq_false'] at h
        tauto
  · left
    intro loc hl
    apply hd
    unfold SourceLocation at *
    omega

theorem rangesDisjoint_symm (a b : SourceRange) (h : RangesDisjoint a b) :
    RangesDisjoint b a :=
  fun loc hl => h loc ⟨hl.2, hl.1⟩

theorem compatible_removeRange (s : SmartRewriter) (range : SourceRange) (opts : RewriteOptions)
    (hs : Compatible s) : Compatible (removeRange s range opts).2 := by
  unfold removeRange
  split
  · rename_i hcan
    have hnew : ∀ x ∈ s.removed,
        RangesDisjoint x.range range ∨ RangeContains x.range range ∨
          RangeContains range x.range := by
      intro x hx
      apply partiallyOverlap_false
      unfold canRemoveRange at hcan
      have := List.all_eq_true.mp hcan x hx
      simpa using this
    intro a ha b hb
    simp only at ha hb
    rcases mem_setInsert _ a _ ha with rfl | ha2
    · rcases mem_setInsert _ b _ hb with rfl | hb2
      · exact Or.inr (Or.inl (fun loc hl => hl))
      · rcases hnew b hb2 with h | h | h
        · exact Or.inl (rangesDisjoint_symm _ _ h)
        · exact Or.inr (Or.inr h)
        · exact Or.inr (Or.inl h)
    · rcases mem_setInsert _ b _ hb with rfl | hb2
      · exact hnew a ha2
      · exact hs a ha2 b hb2
  · exact hs

theorem compatible_foldl (calls : List (SourceRange × RewriteOptions)) :
    ∀ s : SmartRewriter, Compatible s →
      Compatible (calls.foldl (fun s call => (removeRange s call.1 call.2).2) s) := by
  induction calls with
  | nil => intro s hs; exact hs
  | cons c rest ih =>
    intro s hs
    exact ih _ (compatible_removeRange s c.1 c.2 hs)

theorem mem_trailingSpan (fe : FrontEnd) (u : VarDecl) (post : List VarDecl)
    (item : RewriteItem) (h : item ∈ trailingSpan fe u post) :
    post ≠ [] ∧ item.range.getBegin = commaAfter fe u := by
  unfold trailingSpan at h
  cases hlast : post.getLast? with
  | none => simp [hlast] at h
  | some back =>
    simp only [hlast, List.mem_singleton] at h
    subst h
    refine ⟨?_, rfl⟩
    rintro rfl
    simp at hlast

theorem before_or_before (fe : FrontEnd) (l : List VarDecl) (hl : l.Pairwise (Before fe))
    (a b : VarDecl) (ha : a ∈ l) (hb : b ∈ l) (hab : a ≠ b) :
    Before fe a b ∨ Before fe b a := by
  have hsym : Symmetric (fun x y => Before fe x y ∨ Before fe y x) := fun _ _ h => h.symm
  exact (hl.imp (fun h => Or.inl h)).forall hsym ha hb hab

theorem span_misses_after (fe : FrontEnd) (x v : VarDecl) (item : RewriteItem)
    (hitem : item.range = { getBegin := fe.getLocation x, getEnd := commaAfter fe x })
    (h : Before fe x v) (loc : SourceLocation) (h1 : fe.getLocation v ≤ loc) :
    ¬ covers item.range loc := by
  rw [hitem]
  unfold covers
  obtain ⟨_, h3, _⟩ := h
  simp only
  unfold SourceLocation at *
  omega

theorem span_misses_before (fe : FrontEnd) (x v : VarDecl) (item : RewriteItem)
    (hitem : item.range = { getBegin := fe.getLocation x, getEnd := commaAfter fe x })
    (h : Before fe v x) (loc : SourceLocation) (h2 : loc ≤ fe.getExpansionEnd v) :
    ¬ covers item.range loc := by
  rw [hitem]
  unfold covers
  obtain ⟨h3, h4, _⟩ := h
  simp only
  unfold SourceLocation at *
  omega

theorem survive_split (fe : FrontEnd) (usedDecls : Finset Decl) (pre post : List VarDecl)
    (u : VarDecl) (hpost : ∀ v ∈ post, isUsedVar fe usedDecls v = false)
    (hinc : Increasing fe (pre ++ u :: post)) :
    (∀ item ∈ pre.filterMap (declaratorSpan fe usedDecls) ++ trailingSpan fe u post,
      ∀ v ∈ pre ++ u :: post, isUsedVar fe usedDecls v = true →
        ∀ loc, fe.getLocation v ≤ loc → loc ≤ fe.getExpansionEnd v → ¬ covers item.range loc) ∧
    (pre.filterMap (declaratorSpan fe usedDecls) ++ trailingSpan fe u post).Pairwise
      (fun a b => RangesDisjoint a.range b.range) := by
  have hpw := increasing_pairwise fe _ hinc
  obtain ⟨hpre, hupost, hcross⟩ := List.pairwise_append.mp hpw
  have hxu : ∀ x ∈ pre, Before fe x u := fun x hx => hcross x hx u (List.mem_cons_self u post)
  have hucomma : post ≠ [] → fe.getExpansionEnd u < commaAfter fe u := by
    intro hne
    obtain ⟨b, hb⟩ := List.exists_mem_of_ne_nil post hne
    exact ((List.pairwise_cons.mp hupost).1 b hb).1
  constructor
  · intro item hitem v hv hused loc h1 h2
    have hvcases : v ∈ pre ∨ v = u := by
      rcases List.mem_append.mp hv with h | h
      · exact Or.inl h
      · rcases List.mem_cons.mp h with h | h
        · exact Or.inr h
        · rw [hpost v h] at hused
          cases hused
    rcases List.mem_append.mp hitem with hi | hi
    · obtain ⟨x, hx, hds⟩ := List.mem_filterMap.mp hi
      obtain ⟨hxunused, hrange⟩ := declaratorSpan_some fe usedDecls x item hds
      rcases hvcases with hvpre | rfl
      · have hne : x ≠ v := by
          rintro rfl
          rw [hxunused] at hused
          cases hused
        rcases before_or_before fe pre hpre x v hx hvpre hne with hb | hb
        · exact span_misses_after fe x v item hrange hb loc h1
        · exact span_misses_before fe x v item hrange hb loc h2
      · exact span_misses_after fe x v item hrange (hxu x hx) loc h1
    · obtain ⟨hne, hbegin⟩ := mem_trailingSpan fe u post item hi
      have hu := hucomma hne
      intro hcov
      have hc1 := hcov.1
      rw [hbegin] at hc1
      rcases hvcases with hvpre | rfl
      · obtain ⟨h3, h4, h5⟩ := hxu v hvpre
        unfold SourceLocation at *
        omega
      · unfold SourceLocation at *
        omega
  · rw [List.pairwise_append]
    refine ⟨?_, ?_, ?_⟩
    · refine List.Pairwise.filterMap (declaratorSpan fe usedDecls) ?_ hpre
      intro x y hxy a ha b hb
      obtain ⟨_, hra⟩ := declaratorSpan_some fe usedDecls x a ha
      obtain ⟨_, hrb⟩ := declaratorSpan_some fe usedDecls y b hb
      intro loc hl
      rw [hra, hrb] at hl
      obtain ⟨⟨_, h2⟩, ⟨h3, _⟩⟩ := hl
      obtain ⟨_, h5, _⟩ := hxy
      simp only at h2 h3
      unfold SourceLocation at *
      omega
    · unfold trailingSpan
      cases post.getLast? <;> simp
    · intro a ha b hb
      obtain ⟨x, hx, hds⟩ := List.mem_filterMap.mp ha
      obtain ⟨_, hra⟩ := declaratorSpan_some fe usedDecls x a hds
      obtain ⟨hne, hbegin⟩ := mem_trailingSpan fe u post b hb
      have hu := hucomma hne
      obtain ⟨_, h4, h5⟩ := hxu x hx
      intro loc hl
      obtain ⟨⟨_, h2⟩, ⟨h3, _⟩⟩ := hl
      rw [hra] at h2
      rw [hbegin] at h3
      simp only at h2
      unfold SourceLocation at *
      omega

theorem exampleText_layout :
    exampleText[4]? = some 'a' ∧ exampleText[6]? = some '1' ∧ exampleText[7]? = some ',' ∧
    exampleText[9]? = some 'b' ∧ exampleText[11]? = some '2' ∧ exampleText[12]? = some ',' ∧
    exampleText[14]? = some 'c' ∧ exampleText[16]? = some '3' ∧ exampleText[17]? = some ';' ∧
    exampleText.length = 18 := by
  decide

theorem example_requests_accepted :
    (submitted exampleFrontEnd {103} exampleGroup).map
        (fun items => (replay smartRewriterOps items SmartRewriter.empty).removed) =
      submitted exampleFrontEnd {103} exampleGroup ∧
    (submitted exampleFrontEnd {101} exampleGroup).map
        (fun items => (replay smartRewriterOps items SmartRewriter.empty).removed) =
      submitted exampleFrontEnd {101} exampleGroup := by
  decide

theorem closure_example :
    (HandleTranslationUnit.closure
        { isNamespaceDecl := fun d => d == 7
          getCanonicalDecl := fun d => d / 10 * 10
          isInMainFile := fun d => d != 30 }
        [(10, [20]), (20, [10, 30]), (30, [30]), (7, [50]), (80, [90])] [11, 7] 7).map
      (fun r => (decide (r.queue = ∅),
        decide (r.used ⊆ {7, 10, 20, 30, 50} ∧ {7, 10, 20, 30, 50} ⊆ r.used),
        decide (r.usedDecls ⊆ {7, 10, 20, 50} ∧ {7, 10, 20, 50} ⊆ r.usedDecls))) =
      some (true, true, true) := by
  decide!

/-! ## The claims -/

/-- C1: for every finite use-graph and every root set, the worklist loop of
`HandleTranslationUnit` terminates (from some iteration budget on, every budget
reaches the empty queue), and the set `used` it has built then is exactly the
set of declarations reachable from the initial queue (each root canonicalized,
namespace roots kept as they are) by zero or more edges of the graph. -/
theorem closure_eq_reachable (q : DeclQueries) (G : UseGraph) (declsToKeep : List Decl) :
    (∃ bound : Nat, ∀ extra : Nat,
      ∃ r, HandleTranslationUnit.closure q G declsToKeep (bound + extra) = some r ∧ r.queue = ∅ ∧
        ∀ d, d ∈ r.used ↔ Reachable G (initialQueue q declsToKeep) d) ∧
    ∀ d, d ∈ initialQueue q declsToKeep ↔
      ∃ root ∈ declsToKeep,
        d = if q.isNamespaceDecl root then root else q.getCanonicalDecl root := by
  refine ⟨⟨workMeasure (initialQueue q declsToKeep ∪ targets G)
    { used := ∅, queue := initialQueue q declsToKeep, usedDecls := ∅ }, ?_⟩,
    mem_initialQueue q declsToKeep⟩
  intro extra
  obtain ⟨r, hr, hinv, hq⟩ :=
    whileQueue_terminates q G (initialQueue q declsToKeep) _ _ (workInv_init G _)
      (Nat.le_add_right _ extra)
  exact ⟨r, hr, Finset.not_nonempty_iff_eq_empty.mp hq, workInv_final G _ r hinv hq⟩

/-- C2: for a group of at least one declarator none of which is marked used,
`removeUnusedVariables` submits exactly one request, whose range runs from the
start of the type through the semicolon found after the end of the last
declarator; on `int a=1, b=2, c=3;` with nothing used the request covers the
whole statement. -/
theorem removeUnusedVariables_all_unused :
    (∀ (fe : FrontEnd) (usedDecls : Finset Decl) (startOfType : SourceLocation)
        (vars : List VarDecl) (hne : vars ≠ []),
        (∀ v ∈ vars, isUsedVar fe usedDecls v = false) →
        submitted fe usedDecls (startOfType, vars) =
          some [{ range := { getBegin := startOfType
                             getEnd := fe.findSemiAfterLocation
                               (fe.getExpansionEnd (vars.getLast hne)) }
                  opts := { RemoveLineIfEmpty := true } }]) ∧
    submitted exampleFrontEnd ∅ exampleGroup =
      some [{ range := { getBegin := 1, getEnd := 18 }, opts := { RemoveLineIfEmpty := true } }] ∧
    deleteSubmitted exampleText (submitted exampleFrontEnd ∅ exampleGroup) = some "" :=
  ⟨fun fe usedDecls startOfType vars hne h =>
      submitted_all_unused fe usedDecls startOfType vars hne h,
    by decide, by decide⟩

/-- Witness of C2: the group of `int a=1, b=2, c=3;` with nothing used. -/
theorem removeUnusedVariables_all_unused_witness :
    (∀ v ∈ exampleVars, isUsedVar exampleFrontEnd ∅ v = false) ∧
    submitted exampleFrontEnd ∅ (1, exampleVars) =
      some [{ range := { getBegin := 1
                         getEnd := exampleFrontEnd.findSemiAfterLocation
                           (exampleFrontEnd.getExpansionEnd
                             (exampleVars.getLast (by decide))) }
              opts := { RemoveLineIfEmpty := true } }] :=
  ⟨by decide,
    removeUnusedVariables_all_unused.1 exampleFrontEnd ∅ 1 exampleVars (by decide) (by decide)⟩

/-- Counterexample to C3: on `int a=1, b=2, c=3;` with `a` and `c` used the one
request is the range from `b` through its comma, and deleting it leaves two
blanks between the comma and `c`, not the text `int a=1, c=3;`. -/
theorem middle_unused_text_differs :
    submitted exampleFrontEnd {101, 103} exampleGroup =
      some [{ range := { getBegin := 10, getEnd := 13 }, opts := { RemoveLineIfEmpty := true } }] ∧
    deleteSubmitted exampleText (submitted exampleFrontEnd {101, 103} exampleGroup) ≠
      some "int a=1, c=3;" := by
  decide

/-- C3, amended: on `int a=1, b=2, c=3;` with only `b` unused, deleting the
submitted spans leaves `int a=1,  c=3;` (two blanks).  In general, when `u` is the
last used declarator of a group, the requests submitted before the trailing one
are, in order, one per unused declarator that precedes `u`, each running from
the declarator's name through the comma that follows its initializer. -/
theorem removeUnusedVariables_middle_unused :
    (∀ (fe : FrontEnd) (usedDecls : Finset Decl) (startOfType : SourceLocation)
        (pre post : List VarDecl) (u : VarDecl),
        isUsedVar fe usedDecls u = true →
        (∀ v ∈ post, isUsedVar fe usedDecls v = false) →
        submitted fe usedDecls (startOfType, pre ++ u :: post) =
          some (pre.filterMap (declaratorSpan fe usedDecls) ++ trailingSpan fe u post)) ∧
    (∀ (fe : FrontEnd) (usedDecls : Finset Decl) (v : VarDecl) (item : RewriteItem),
        declaratorSpan fe usedDecls v = some item →
        isUsedVar fe usedDecls v = false ∧
          item.range = { getBegin := fe.getLocation v
                         getEnd := fe.findTokenAfterLocation (fe.getExpansionEnd v)
                           TokenKind.comma }) ∧
    deleteSubmitted exampleText (submitted exampleFrontEnd {101, 103} exampleGroup) =
      some "int a=1,  c=3;" := by
  refine ⟨fun fe usedDecls startOfType pre post u hu hpost =>
      submitted_some_used fe usedDecls startOfType pre post u hu hpost, ?_, by decide⟩
  intro fe usedDecls v item h
  unfold declaratorSpan at h
  split at h
  · rename_i hc
    simp only [Option.some.injEq] at h
    subst h
    simp only [Bool.and_eq_true, Bool.not_eq_true'] at hc
    exact ⟨hc.1, rfl⟩
  · cases h

/-- Witness of C3: the group of `int a=1, b=2, c=3;` with `a` and `c` used; the
one request is the span of `b`, locations 10 through 13. -/
theorem removeUnusedVariables_middle_unused_witness :
    isUsedVar exampleFrontEnd {101, 103} 103 = true ∧
    submitted exampleFrontEnd {101, 103} (1, [101, 102] ++ 103 :: []) =
      some ([101, 102].filterMap (declaratorSpan exampleFrontEnd {101, 103}) ++
        trailingSpan exampleFrontEnd 103 []) ∧
    declaratorSpan exampleFrontEnd {101, 103} 102 = some ⟨⟨10, 13⟩, ⟨true⟩⟩ ∧
    (isUsedVar exampleFrontEnd {101, 103} 102 = false ∧
      (⟨⟨10, 13⟩, ⟨true⟩⟩ : RewriteItem).range =
        { getBegin := exampleFrontEnd.getLocation 102
          getEnd := exampleFrontEnd.findTokenAfterLocation
            (exampleFrontEnd.getExpansionEnd 102) TokenKind.comma }) :=
  ⟨by decide,
    removeUnusedVariables_middle_unused.1 exampleFrontEnd {101, 103} 1 [101, 102] [] 103
      (by decide) (by decide),
    by decide,
    removeUnusedVariables_middle_unused.2.1 exampleFrontEnd {101, 103} 102 ⟨⟨10, 13⟩, ⟨true⟩⟩
      (by decide)⟩

/-- C4: when `u` is the last used declarator of a group and declarators follow
it, the requests end with exactly one span for all of them, from the comma after
`u` through the end of the last declarator, and the requests before it belong to
declarators that precede `u`; when nothing follows `u` there is no such span.
On `int a=1, b=2, c=3;` with `b` and `c` unused, deleting the span leaves
`int a=1;`. -/
theorem removeUnusedVariables_trailing_unused :
    (∀ (fe : FrontEnd) (usedDecls : Finset Decl) (startOfType : SourceLocation)
        (pre post : List VarDecl) (u : VarDecl) (hne : post ≠ []),
        isUsedVar fe usedDecls u = true →
        (∀ v ∈ post, isUsedVar fe usedDecls v = false) →
        submitted fe usedDecls (startOfType, pre ++ u :: post) =
          some (pre.filterMap (declaratorSpan fe usedDecls) ++
            [{ range := { getBegin := fe.findTokenAfterLocation (fe.getExpansionEnd u)
                            TokenKind.comma
                          getEnd := fe.getExpansionEnd (post.getLast hne) }
               opts := { RemoveLineIfEmpty := true } }])) ∧
    (∀ (fe : FrontEnd) (usedDecls : Finset Decl) (startOfType : SourceLocation)
        (pre : List VarDecl) (u : VarDecl),
        isUsedVar fe usedDecls u = true →
        submitted fe usedDecls (startOfType, pre ++ [u]) =
          some (pre.filterMap (declaratorSpan fe usedDecls))) ∧
    submitted exampleFrontEnd {101} exampleGroup =
      some [{ range := { getBegin := 8, getEnd := 17 }, opts := { RemoveLineIfEmpty := true } }] ∧
    deleteSubmitted exampleText (submitted exampleFrontEnd {101} exampleGroup) =
      some "int a=1;" := by
  refine ⟨?_, ?_, by decide, by decide⟩
  · intro fe usedDecls startOfType pre post u hne hu hpost
    rw [submitted_some_used fe usedDecls startOfType pre post u hu hpost]
    simp [trailingSpan, List.getLast?_eq_getLast _ hne, commaAfter]
  · intro fe usedDecls startOfType pre u hu
    rw [submitted_some_used fe usedDecls startOfType pre [] u hu (by simp)]
    simp [trailingSpan]

/-- Witness of C4: the group of `int a=1, b=2, c=3;` with only `a` used (one
trailing span, 8 through 17), and with only `c` used (no trailing span). -/
theorem removeUnusedVariables_trailing_unused_witness :
    isUsedVar exampleFrontEnd {101} 101 = true ∧
    submitted exampleFrontEnd {101} (1, [] ++ 101 :: [102, 103]) =
      some (([] : List VarDecl).filterMap (declaratorSpan exampleFrontEnd {101}) ++
        [{ range := { getBegin := exampleFrontEnd.findTokenAfterLocation
                        (exampleFrontEnd.getExpansionEnd 101) TokenKind.comma
                      getEnd := exampleFrontEnd.getExpansionEnd
                        (([102, 103] : List VarDecl).getLast (by decide)) }
           opts := { RemoveLineIfEmpty := true } }]) ∧
    isUsedVar exampleFrontEnd {103} 103 = true ∧
    submitted exampleFrontEnd {103} (1, [101, 102] ++ [103]) =
      some ([101, 102].filterMap (declaratorSpan exampleFrontEnd {103})) :=
  ⟨by decide,
    removeUnusedVariables_trailing_unused.1 exampleFrontEnd {101} 1 [] [102, 103] 101
      (by decide) (by decide) (by decide),
    by decide,
    removeUnusedVariables_trailing_unused.2.1 exampleFrontEnd {103} 1 [101, 102] 103
      (by decide)⟩

/-- C5: after any sequence of `removeRange` calls on an initially empty ledger,
every two ranges of the accepted set are disjoint or nested; and a `removeRange`
call for which `canRemoveRange` is false returns false and leaves the ledger as
it was. -/
theorem removeRange_no_partial_overlap :
    (∀ (calls : List (SourceRange × RewriteOptions)) (a b : RewriteItem),
        a ∈ (removeAll calls).removed → b ∈ (removeAll calls).removed →
        RangesDisjoint a.range b.range ∨ RangeContains a.range b.range ∨
          RangeContains b.range a.range) ∧
    (∀ (s : SmartRewriter) (range : SourceRange) (opts : RewriteOptions),
        canRemoveRange s range = false → removeRange s range opts = (false, s)) := by
  constructor
  · intro calls a b ha hb
    have hempty : Compatible SmartRewriter.empty := by
      intro x hx
      simp [SmartRewriter.empty] at hx
    exact compatible_foldl calls SmartRewriter.empty hempty a ha b hb
  · intro s range opts h
    simp [removeRange, h]

/-- Witness of C5: the requests 1..10, 5..15 (rejected), 2..3 (nested) and
20..30 (disjoint). -/
theorem removeRange_no_partial_overlap_witness :
    (removeAll [(⟨1, 10⟩, ⟨true⟩), (⟨5, 15⟩, ⟨true⟩), (⟨2, 3⟩, ⟨true⟩), (⟨20, 30⟩, ⟨true⟩)]).removed =
      [⟨⟨1, 10⟩, ⟨true⟩⟩, ⟨⟨2, 3⟩, ⟨true⟩⟩, ⟨⟨20, 30⟩, ⟨true⟩⟩] ∧
    (RangesDisjoint (⟨1, 10⟩ : SourceRange) ⟨2, 3⟩ ∨ RangeContains (⟨1, 10⟩ : SourceRange) ⟨2, 3⟩ ∨
      RangeContains (⟨2, 3⟩ : SourceRange) ⟨1, 10⟩) ∧
    canRemoveRange (removeAll [(⟨1, 10⟩, ⟨true⟩)]) ⟨5, 15⟩ = false ∧
    removeRange (removeAll [(⟨1, 10⟩, ⟨true⟩)]) ⟨5, 15⟩ ⟨true⟩ =
      (false, removeAll [(⟨1, 10⟩, ⟨true⟩)]) :=
  ⟨by decide,
    removeRange_no_partial_overlap.1
      [(⟨1, 10⟩, ⟨true⟩), (⟨5, 15⟩, ⟨true⟩), (⟨2, 3⟩, ⟨true⟩), (⟨20, 30⟩, ⟨true⟩)]
      ⟨⟨1, 10⟩, ⟨true⟩⟩ ⟨⟨2, 3⟩, ⟨true⟩⟩ (by decide) (by decide),
    by decide,
    removeRange_no_partial_overlap.2 (removeAll [(⟨1, 10⟩, ⟨true⟩)]) ⟨5, 15⟩ ⟨true⟩ (by decide)⟩

/-- Counterexample to C6: on `int a=1, b=2, c=3;` with `a`, `b`, `c` used no
request is submitted, and with no rewrite buffer and a main-file buffer flagged
invalid `getResult` returns the text `Inliner error`, not the text of the
buffer. -/
theorem round_trip_inliner_error :
    submitted exampleFrontEnd {101, 102, 103} exampleGroup = some [] ∧
    getResult none (some "int a=1, b=2, c=3;") true = "Inliner error" ∧
    getResult none (some "int a=1, b=2, c=3;") true ≠ "int a=1, b=2, c=3;" := by
  decide

/-- C6, amended: when every declarator of a group is marked used,
`removeUnusedVariables` submits no request for it, and when that holds of every
group it leaves any rewriter exactly as it was; and with no rewrite buffer for
the main file, `getResult` returns the text of the original input buffer when
the main-file buffer is non-null and not flagged invalid, and the text
`Inliner error` otherwise. -/
theorem removeUnusedVariables_all_used :
    (∀ (fe : FrontEnd) (usedDecls : Finset Decl) (startOfType : SourceLocation)
        (vars : List VarDecl), vars ≠ [] →
        (∀ v ∈ vars, isUsedVar fe usedDecls v = true) →
        submitted fe usedDecls (startOfType, vars) = some []) ∧
    (∀ (σ : Type) (ops : RewriterOps σ) (fe : FrontEnd) (usedDecls : Finset Decl)
        (staticVariables : List (SourceLocation × List VarDecl)) (rw : σ),
        (∀ kv ∈ staticVariables, kv.2 ≠ [] ∧ ∀ v ∈ kv.2, isUsedVar fe usedDecls v = true) →
        removeUnusedVariables ops fe usedDecls staticVariables rw = some rw) ∧
    (∀ original : String, getResult none (some original) false = original) ∧
    (∀ (buf : Option String) (invalid : Bool), buf = none ∨ invalid = true →
        getResult none buf invalid = "Inliner error") := by
  refine ⟨fun fe usedDecls startOfType vars hne h =>
      submitted_all_used fe usedDecls startOfType vars hne h,
    fun _ ops fe usedDecls staticVariables rw h =>
      removeUnusedVariables_unchanged ops fe usedDecls staticVariables rw h,
    fun _ => rfl, ?_⟩
  rintro buf invalid (rfl | rfl)
  · rfl
  · cases buf <;> rfl

/-- Witness of C6: the group of `int a=1, b=2, c=3;` with `a`, `b`, `c` used, and
a main-file buffer flagged invalid. -/
theorem removeUnusedVariables_all_used_witness :
    (∀ v ∈ exampleVars, isUsedVar exampleFrontEnd {101, 102, 103} v = true) ∧
    submitted exampleFrontEnd {101, 102, 103} (1, exampleVars) = some [] ∧
    removeUnusedVariables recorder exampleFrontEnd {101, 102, 103} [exampleGroup] [] =
      some [] ∧
    getResult none (some "int a=1, b=2, c=3;") false = "int a=1, b=2, c=3;" ∧
    getResult none (some "int a=1, b=2, c=3;") true = "Inliner error" :=
  ⟨by decide,
    removeUnusedVariables_all_used.1 exampleFrontEnd {101, 102, 103} 1 exampleVars
      (by decide) (by decide),
    removeUnusedVariables_all_used.2.1 (List RewriteItem) recorder exampleFrontEnd
      {101, 102, 103} [exampleGroup] [] (by decide),
    removeUnusedVariables_all_used.2.2.1 "int a=1, b=2, c=3;",
    removeUnusedVariables_all_used.2.2.2 (some "int a=1, b=2, c=3;") true (Or.inr rfl)⟩

/-- C7: `doOptimize` throws `runtime_error("Compilation error")` exactly if the
run returns a nonzero status; it then returns no text, and when the status is
zero it returns, without throwing, the string the consumer produced. -/
theorem doOptimize_compilation_error
    (toolRun : List String → Except String (Int × String)) (cppFile : String) :
    (doOptimize toolRun cppFile = Except.error (Thrown.runtime_error "Compilation error") ↔
      ∃ ret result, toolRun [cppFile] = Except.ok (ret, result) ∧ ret ≠ 0) ∧
    (∀ ret result, toolRun [cppFile] = Except.ok (ret, result) → ret ≠ 0 →
      ∀ text, doOptimize toolRun cppFile ≠ Except.ok text) ∧
    (∀ ret result, toolRun [cppFile] = Except.ok (ret, result) → ret = 0 →
      doOptimize toolRun cppFile = Except.ok result) := by
  unfold doOptimize
  cases hrun : toolRun [cppFile] with
  | error what => simp
  | ok val =>
    obtain ⟨ret, result⟩ := val
    by_cases h : ret = 0
    · simp [h]
    · simp [h]

/-- Witness of C7: a run that returns status 1, and a run that returns status 0
with the text `int x;`. -/
theorem doOptimize_compilation_error_witness :
    doOptimize (fun _ => Except.ok (1, "")) "a.cpp" =
      Except.error (Thrown.runtime_error "Compilation error") ∧
    (∀ text, doOptimize (fun _ => Except.ok (1, "")) "a.cpp" ≠ Except.ok text) ∧
    doOptimize (fun _ => Except.ok (0, "int x;")) "a.cpp" = Except.ok "int x;" :=
  ⟨(doOptimize_compilation_error (fun _ => Except.ok (1, "")) "a.cpp").1.mpr
      ⟨1, "", rfl, by decide⟩,
    (doOptimize_compilation_error (fun _ => Except.ok (1, "")) "a.cpp").2.1 1 "" rfl
      (by decide),
    (doOptimize_compilation_error (fun _ => Except.ok (0, "int x;")) "a.cpp").2.2 0 "int x;"
      rfl rfl⟩

/-- Counterexample to C8: with no rewrite buffer and a main-file buffer that is
flagged invalid, or a null one, `getResult` returns the text `Inliner error`,
which is neither an edited buffer nor the original source. -/
theorem getResult_inliner_error :
    getResult none (some "int x;") true = "Inliner error" ∧
    getResult none (some "int x;") true ≠ "int x;" ∧
    getResult none none false = "Inliner error" := by
  decide

/-- C8, amended: with no rewrite buffer, `getResult` returns the original source
text when the main-file buffer is non-null and not flagged invalid, and the text
`Inliner error` otherwise; with a rewrite buffer it returns that buffer. -/
theorem getResult_fallback (rewriteBuf buf : Option String) (invalid : Bool) :
    (∀ rewritten, rewriteBuf = some rewritten → getResult rewriteBuf buf invalid = rewritten) ∧
    (rewriteBuf = none → ∀ original, buf = some original → invalid = false →
      getResult rewriteBuf buf invalid = original) ∧
    (rewriteBuf = none → buf = none ∨ invalid = true →
      getResult rewriteBuf buf invalid = "Inliner error") := by
  refine ⟨?_, ?_, ?_⟩
  · rintro rewritten rfl
    rfl
  · rintro rfl original rfl rfl
    rfl
  · rintro rfl (rfl | rfl)
    · rfl
    · cases buf <;> rfl

/-- Witness of C8: no rewrite buffer and a main-file buffer holding `int x;`,
valid and flagged invalid; and a rewrite buffer holding `int y;`. -/
theorem getResult_fallback_witness :
    getResult (some "int y;") (some "int x;") false = "int y;" ∧
    getResult none (some "int x;") false = "int x;" ∧
    getResult none (some "int x;") true = "Inliner error" :=
  ⟨(getResult_fallback (some "int y;") (some "int x;") false).1 "int y;" rfl,
    (getResult_fallback none (some "int x;") false).2.1 rfl "int x;" rfl rfl,
    (getResult_fallback none (some "int x;") true).2.2 rfl (Or.inr rfl)⟩

/-- C9 fails on the code: the whole-statement request is submitted with the
invalid end location that `findSemiAfterLocation` returned, and the trailing
request with the invalid begin location that `findTokenAfterLocation` returned. -/
theorem removeUnusedVariables_submits_invalid :
    submitted macroFrontEnd ∅ (1, [201]) =
      some [{ range := { getBegin := 1, getEnd := 0 }, opts := { RemoveLineIfEmpty := true } }] ∧
    submitted macroFrontEnd {201} (1, [201, 202]) =
      some [{ range := { getBegin := 0, getEnd := 14 }, opts := { RemoveLineIfEmpty := true } }] ∧
    isValid 0 = false := by
  decide

/-- C10: for a group whose declarators lie at increasing, non-overlapping
locations, no request that `removeUnusedVariables` submits covers a location
between the name and the end of a declarator marked used, and the requests
submitted for the group are pairwise disjoint. -/
theorem removeUnusedVariables_keeps_used (fe : FrontEnd) (usedDecls : Finset Decl)
    (startOfType : SourceLocation) (vars : List VarDecl) (hne : vars ≠ [])
    (hinc : Increasing fe vars) :
    ∃ items, submitted fe usedDecls (startOfType, vars) = some items ∧
      (∀ item ∈ items, ∀ v ∈ vars, isUsedVar fe usedDecls v = true →
        ∀ loc, fe.getLocation v ≤ loc → loc ≤ fe.getExpansionEnd v →
          ¬ covers item.range loc) ∧
      items.Pairwise (fun a b => RangesDisjoint a.range b.range) := by
  by_cases hex : ∃ v ∈ vars, isUsedVar fe usedDecls v = true
  · obtain ⟨pre, u, post, rfl, hu, hpost⟩ := exists_last_used fe usedDecls vars hex
    exact ⟨_, submitted_some_used fe usedDecls startOfType pre post u hu hpost,
      survive_split fe usedDecls pre post u hpost hinc⟩
  · have hall : ∀ v ∈ vars, isUsedVar fe usedDecls v = false := by
      intro v hv
      cases h : isUsedVar fe usedDecls v with
      | false => rfl
      | true => exact absurd ⟨v, hv, h⟩ hex
    refine ⟨_, submitted_all_unused fe usedDecls startOfType vars hne hall, ?_, ?_⟩
    · intro item _ v hv hused
      rw [hall v hv] at hused
      cases hused
    · simp

/-- Witness of C10: the group of `int a=1, b=2, c=3;` with only `c` used; the
two requests are 5..8 and 10..13, and `c` occupies 15..17. -/
theorem removeUnusedVariables_keeps_used_witness :
    Increasing exampleFrontEnd exampleVars ∧
    submitted exampleFrontEnd {103} (1, exampleVars) =
      some [⟨⟨5, 8⟩, ⟨true⟩⟩, ⟨⟨10, 13⟩, ⟨true⟩⟩] ∧
    ∃ items, submitted exampleFrontEnd {103} (1, exampleVars) = some items ∧
      (∀ item ∈ items, ∀ v ∈ exampleVars, isUsedVar exampleFrontEnd {103} v = true →
        ∀ loc, exampleFrontEnd.getLocation v ≤ loc → loc ≤ exampleFrontEnd.getExpansionEnd v →
          ¬ covers item.range loc) ∧
      items.Pairwise (fun a b => RangesDisjoint a.range b.range) :=
  ⟨by decide, by decide,
    removeUnusedVariables_keeps_used exampleFrontEnd {103} 1 exampleVars (by decide)
      (by decide)⟩

end Caide
